import Mathlib

/-!
Verification development for the indexer's Action Queue & Allocation Lifecycle
Engine.  The data model follows the management API schema (enums `ActionStatus`,
`ActionType`, `AllocationStatus`, types `Action`, `ActionResult`, `IndexingRule`,
`CostModel`) and the `IndexerManagementClient.setDai` method; components whose
implementation lives outside the provided sources (queue resolvers, executor,
rule merge, allocation status derivation) are modelled from the specification
and marked as such on each definition.
-/

namespace IndexerMgmt

/-- Status enum of a queued action, from the management schema (`ActionStatus`). -/
inductive ActionStatus where
  | queued
  | approved
  | pending
  | success
  | failed
  | canceled
deriving DecidableEq, Repr

/-- Type enum of a queued action, from the management schema (`ActionType`). -/
inductive ActionType where
  | allocate
  | unallocate
  | reallocate
deriving DecidableEq, Repr

/-- A queued action record, fields as in the management schema type `Action`. -/
structure Action where
  id : Nat
  status : ActionStatus
  type : ActionType
  deploymentID : Option String
  allocationID : Option String
  amount : Option String
  poi : Option String
  force : Option Bool
  priority : Nat
  source : String
  reason : String
  transaction : Option String
  failureReason : Option String
  createdAt : Nat
  updatedAt : Option Nat
deriving DecidableEq, Repr

/-- Terminal statuses of the action lifecycle: success, failed, canceled. -/
def ActionStatus.isTerminal : ActionStatus → Bool
  | .success => true
  | .failed => true
  | .canceled => true
  | _ => false

/-- In-flight statuses of the action lifecycle: queued, approved, pending. -/
def ActionStatus.inFlight : ActionStatus → Bool
  | .queued => true
  | .approved => true
  | .pending => true
  | _ => false

/-- Derived status of an on-chain allocation, from the management schema
(`AllocationStatus`). -/
inductive AllocationStatus where
  | Null
  | Active
  | Closed
  | Finalized
  | Claimed
deriving DecidableEq, Repr

/-- Modelled from the spec: a read-only, externally-sourced view of one on-chain
allocation (§3 AllocationSnapshot); `closedAtEpoch = 0` means the allocation is
not yet closed, `channelDisputeEpochs` is the dispute-window length and
`currentEpoch` is the network's current epoch. -/
structure AllocationSnapshot where
  id : String
  indexer : String
  subgraphDeployment : String
  tokens : Nat
  createdAtEpoch : Nat
  closedAtEpoch : Nat
  channelDisputeEpochs : Nat
  currentEpoch : Nat
deriving DecidableEq, Repr

/-- The zero address of the external network. -/
def zeroAddress : String := "0x0000000000000000000000000000000000000000"

/-- Modelled from the spec: the pure derivation of an allocation's status
(§3): Null if the indexer is the zero address; Claimed once tokens are fully
withdrawn; Active if tokens > 0 and not yet closed; Closed if closed but within
the dispute window; Finalized once the dispute window has elapsed.  The
implementation of this derivation is not among the provided sources (only the
`AllocationStatus` enum declaration is). -/
def allocationStatus (a : AllocationSnapshot) : AllocationStatus :=
  if a.indexer = zeroAddress then .Null
  else if a.tokens = 0 then .Claimed
  else if a.closedAtEpoch = 0 then .Active
  else if a.currentEpoch < a.closedAtEpoch + a.channelDisputeEpochs then .Closed
  else .Finalized


/-- Enqueue input, fields as in the management schema input type `ActionInput`. -/
structure ActionInput where
  status : ActionStatus
  type : ActionType
  deploymentID : Option String
  allocationID : Option String
  amount : Option String
  poi : Option String
  force : Option Bool
  source : String
  reason : Option String
  priority : Option Nat
deriving DecidableEq, Repr

/-- Error taxonomy of the queue operations (§7): validation, conflict and
not-found errors surfaced synchronously to callers. -/
inductive QueueError where
  | ValidationError
  | ConflictError
  | NotFoundError
deriving DecidableEq, Repr

/-- Modelled from the spec: the durable action queue state — the stored action
records plus the process-assigned monotonic id counter (§3, §4.3).  The queue
resolver implementation is not among the provided sources (only its schema
declaration `Mutation.queueActions` etc. is). -/
structure QueueState where
  actions : List Action
  nextId : Nat
deriving DecidableEq, Repr

/-- The empty initial queue. -/
def initState : QueueState := ⟨[], 1⟩

/-- Modelled from the spec: required-field validation on enqueue (§4.3) —
allocate requires `deploymentID` and `amount`; unallocate and reallocate
require `allocationID`. -/
def validateInput (i : ActionInput) : Bool :=
  match i.type with
  | .allocate => i.deploymentID.isSome && i.amount.isSome
  | .unallocate => i.allocationID.isSome
  | .reallocate => i.allocationID.isSome

/-- An action is in flight against the target pair `(d, aid)`: it has that
`(deploymentID, allocationID)` pair and a queued/approved/pending status. -/
def tgtInFlight (d aid : Option String) (a : Action) : Bool :=
  a.status.inFlight && a.deploymentID == d && a.allocationID == aid

/-- Number of in-flight actions in the queue for the target pair `(d, aid)`. -/
def inFlightCount (s : QueueState) (d aid : Option String) : Nat :=
  s.actions.countP (tgtInFlight d aid)

/-- Number of approved-or-pending actions in the queue for the target pair
`(d, aid)` — the counted statuses of the §3 anti-double-submission invariant. -/
def apCount (s : QueueState) (d aid : Option String) : Nat :=
  s.actions.countP (fun a =>
    (a.status == ActionStatus.approved || a.status == ActionStatus.pending) &&
    a.deploymentID == d && a.allocationID == aid)

/-- Modelled from the spec: the at-most-one-in-flight conflict check performed
by enqueue (§4.3, §8) — some stored action for the same
`(deploymentID, allocationID)` pair is still queued, approved or pending. -/
def hasConflict (s : QueueState) (i : ActionInput) : Bool :=
  s.actions.any (tgtInFlight i.deploymentID i.allocationID)

/-- Modelled from the spec: `enqueue(actionInput)` (§4.3) — validates required
fields per type, enforces the at-most-one-in-flight invariant (else
`ConflictError`), assigns `id`, sets `status = queued` (or `approved` when the
input requests immediate approval), and returns the stored record. -/
def enqueue (s : QueueState) (i : ActionInput) (now : Nat) :
    Except QueueError (QueueState × Action) :=
  if validateInput i = false then .error .ValidationError
  else if hasConflict s i then .error .ConflictError
  else
    let a : Action :=
      { id := s.nextId
        status := if i.status = .approved then .approved else .queued
        type := i.type
        deploymentID := i.deploymentID
        allocationID := i.allocationID
        amount := i.amount
        poi := i.poi
        force := i.force
        priority := i.priority.getD 0
        source := i.source
        reason := i.reason.getD ""
        transaction := none
        failureReason := none
        createdAt := now
        updatedAt := none }
    .ok (⟨s.actions ++ [a], s.nextId + 1⟩, a)

/-- Modelled from the spec: `approve(ids[])` moves each queued action to
approved; actions not currently queued are skipped (§4.3). -/
def approveOne (ids : List Nat) (a : Action) : Action :=
  if ids.contains a.id ∧ a.status = .queued then { a with status := .approved } else a

/-- Modelled from the spec: `cancel(ids[])` moves queued/approved actions to
canceled; a no-op for actions already terminal or pending (§4.3). -/
def cancelOne (ids : List Nat) (a : Action) : Action :=
  if ids.contains a.id ∧ (a.status = .queued ∨ a.status = .approved) then
    { a with status := .canceled }
  else a

/-- Modelled from the spec: the executor's claim is the transition
approved → pending, conditional on the action still being approved (§4.3, §5). -/
def claimOne (ids : List Nat) (a : Action) : Action :=
  if ids.contains a.id ∧ a.status = .approved then { a with status := .pending } else a

/-- Modelled from the spec: the executor records a pending action's individual
outcome — success with a transaction reference, or failed with a failure
reason (§4.4). -/
def settleOne (i : Nat) (ok : Bool) (tx failr : String) (a : Action) : Action :=
  if a.id = i ∧ a.status = .pending then
    if ok then { a with status := .success, transaction := some tx }
    else { a with status := .failed, failureReason := some failr }
  else a

/-- Modelled from the spec: `delete(ids[])` permanently removes listed records
not in pending state; deleting a pending action is rejected with
`ConflictError` and the pending record is kept (§4.3, §8). -/
def deleteActs (s : QueueState) (ids : List Nat) : Option QueueError × QueueState :=
  ((if s.actions.any (fun a => ids.contains a.id && a.status == ActionStatus.pending)
      then some .ConflictError else none),
   ⟨s.actions.filter (fun a => !(ids.contains a.id) || a.status == ActionStatus.pending),
    s.nextId⟩)

/-- A queue operation: the mutations of §4.3 plus the executor's claim and
outcome recording of §4.4. -/
inductive QueueOp where
  | enq (i : ActionInput) (now : Nat)
  | approve (ids : List Nat)
  | cancel (ids : List Nat)
  | claim (ids : List Nat)
  | settle (i : Nat) (ok : Bool) (tx failr : String)
  | del (ids : List Nat)

/-- Apply one queue operation to the queue state (a rejected enqueue or a
rejected delete leaves the state unchanged). -/
def applyOp (s : QueueState) : QueueOp → QueueState
  | .enq i now =>
    match enqueue s i now with
    | .ok p => p.1
    | .error _ => s
  | .approve ids => ⟨s.actions.map (approveOne ids), s.nextId⟩
  | .cancel ids => ⟨s.actions.map (cancelOne ids), s.nextId⟩
  | .claim ids => ⟨s.actions.map (claimOne ids), s.nextId⟩
  | .settle i ok tx fr => ⟨s.actions.map (settleOne i ok tx fr), s.nextId⟩
  | .del ids => (deleteActs s ids).2

/-- Apply a sequence of queue operations. -/
def applyOps (s : QueueState) (ops : List QueueOp) : QueueState :=
  ops.foldl applyOp s

/-- Queue states reachable from the empty queue by queue operations. -/
inductive Reachable : QueueState → Prop
  | init : Reachable initState
  | step (s : QueueState) (op : QueueOp) : Reachable s → Reachable (applyOp s op)

/-- The queue exclusivity invariant: at most one in-flight action per
`(deploymentID, allocationID)` pair. -/
def QueueInv (s : QueueState) : Prop :=
  ∀ d aid, inFlightCount s d aid ≤ 1

/-- The edges of the action lifecycle state machine (§4.3): queued → approved,
approved → pending, pending → success | failed, queued | approved → canceled,
plus staying put; anything else is forbidden. -/
def stepAllowed : ActionStatus → ActionStatus → Bool
  | .queued, .approved => true
  | .queued, .canceled => true
  | .approved, .pending => true
  | .approved, .canceled => true
  | .pending, .success => true
  | .pending, .failed => true
  | a, b => a == b

/-- Well-formedness of a queue state: ids are below the id counter and
pairwise distinct. -/
def WFQueue (s : QueueState) : Prop :=
  (∀ a ∈ s.actions, a.id < s.nextId) ∧
  s.actions.Pairwise (fun x y => x.id ≠ y.id)

/-- Modelled from the spec: the per-item outcome the Transaction collaborator
returns for one submitted operation of a batch (§4.4, §6). -/
inductive TxOutcome where
  | confirmed (tx : String)
  | reverted (why : String)
deriving DecidableEq, Repr

/-- Modelled from the spec: the executor independently records one claimed
action's outcome — success with its transaction reference, or failed with a
failure reason describing the specific rejection (§4.4).  The executor
implementation is not among the provided sources (only the `ActionResult`
schema declaration is). -/
def recordOutcome (a : Action) (o : TxOutcome) : Action :=
  match o with
  | .confirmed tx => { a with status := .success, transaction := some tx }
  | .reverted why => { a with status := .failed, failureReason := some why }

/-- Modelled from the spec: executing a claimed batch records each action's own
individual outcome (§4.4). -/
def executeBatch (batch : List Action) (outcomes : List TxOutcome) : List Action :=
  List.zipWith recordOutcome batch outcomes

/-- Decision basis enum, from the management schema (`IndexingDecisionBasis`). -/
inductive IndexingDecisionBasis where
  | rules
  | never
  | always
  | offchain
deriving DecidableEq, Repr

/-- Identifier kind enum, from the management schema (`IdentifierType`). -/
inductive IdentifierType where
  | deployment
  | subgraph
  | group
deriving DecidableEq, Repr

/-- A stored indexing rule, fields as in the management schema type
`IndexingRule`; every mergeable field is optional so that absent fields can
inherit from a less specific rule (§3, §4.1). -/
structure IndexingRule where
  identifier : String
  identifierType : IdentifierType
  allocationAmount : Option Nat
  allocationLifetime : Option Nat
  autoRenewal : Option Bool
  parallelAllocations : Option Nat
  maxAllocationPercentage : Option Nat
  minSignal : Option Nat
  maxSignal : Option Nat
  minStake : Option Nat
  minAverageQueryFees : Option Nat
  custom : Option String
  decisionBasis : Option IndexingDecisionBasis
  requireSupported : Option Bool
deriving DecidableEq, Repr

/-- Field-level merge: a field present on the more specific rule wins, an
absent field inherits the less specific rule's value (§4.1). -/
def mergeField (specific fallback : Option α) : Option α :=
  match specific with
  | some v => some v
  | none => fallback

/-- Modelled from the spec: merge two candidate rules field by field — the
more specific rule's fields win, absent fields fall through (§4.1, §9).  The
rule resolver implementation is not among the provided sources (only the
`Query.indexingRule` schema declaration is). -/
def mergeRules (specific fallback : IndexingRule) : IndexingRule :=
  { identifier := specific.identifier
    identifierType := specific.identifierType
    allocationAmount := mergeField specific.allocationAmount fallback.allocationAmount
    allocationLifetime := mergeField specific.allocationLifetime fallback.allocationLifetime
    autoRenewal := mergeField specific.autoRenewal fallback.autoRenewal
    parallelAllocations := mergeField specific.parallelAllocations fallback.parallelAllocations
    maxAllocationPercentage :=
      mergeField specific.maxAllocationPercentage fallback.maxAllocationPercentage
    minSignal := mergeField specific.minSignal fallback.minSignal
    maxSignal := mergeField specific.maxSignal fallback.maxSignal
    minStake := mergeField specific.minStake fallback.minStake
    minAverageQueryFees :=
      mergeField specific.minAverageQueryFees fallback.minAverageQueryFees
    custom := mergeField specific.custom fallback.custom
    decisionBasis := mergeField specific.decisionBasis fallback.decisionBasis
    requireSupported := mergeField specific.requireSupported fallback.requireSupported }

/-- Look up the stored rule keyed exactly by `(ident, ty)` (§4.1). -/
def findRule (rules : List IndexingRule) (ident : String) (ty : IdentifierType) :
    Option IndexingRule :=
  rules.find? (fun r => r.identifier == ident && r.identifierType == ty)

/-- Modelled from the spec: among the groups the workload belongs to, pick the
rule of the first matching group in the given enumeration order (§4.1's
deterministic tie-break). -/
def firstGroupRule (rules : List IndexingRule) (groups : List String) :
    Option IndexingRule :=
  (groups.filterMap (fun g => findRule rules g .group)).head?

/-- The single global fallback rule, stored under the sentinel identifier
"global" (§3, §4.1). -/
def globalRule (rules : List IndexingRule) : Option IndexingRule :=
  findRule rules "global" .group

/-- Merge an optional more specific rule over an optional fallback. -/
def mergeOptRules : Option IndexingRule → Option IndexingRule → Option IndexingRule
  | some s, some f => some (mergeRules s f)
  | some s, none => some s
  | none, f => f

/-- Modelled from the spec: `getEffectiveRule` — precedence
deployment > group > global with field-level merge through the chain; returns
none only when no rule exists at any level (§4.1). -/
def getEffectiveRule (rules : List IndexingRule) (workloadID : String)
    (groups : List String) : Option IndexingRule :=
  mergeOptRules (findRule rules workloadID .deployment)
    (mergeOptRules (firstGroupRule rules groups) (globalRule rules))

/-- A cost model record, fields as in the management schema type `CostModel`;
the `variables` JSON object is modelled as a key-value list. -/
structure CostModel where
  deployment : String
  model : Option String
  «variables» : Option (List (String × String))
deriving DecidableEq, Repr

/-- The jsonb concatenation of two objects: keys of the right operand override
keys of the left, as in the SQL expression `variables || update` of `setDai`. -/
def jsonbConcat (a b : List (String × String)) : List (String × String) :=
  a.filter (fun p => !(b.any (fun q => q.1 == p.1))) ++ b

/-- The writable eventual holding the DAI conversion value: whether a value has
resolved (`valueReady`), the current value, and the history of pushed values. -/
structure DaiEventual where
  valueReady : Bool
  value : String
  pushed : List String
deriving DecidableEq, Repr

/-- The client state touched by `IndexerManagementClient.setDai`: the DAI
eventual plus the stored cost model rows. -/
structure ClientState where
  dai : DaiEventual
  costModels : List CostModel
deriving DecidableEq, Repr

/-- The per-row cost model update performed by `setDai`: rows whose `model` is
non-null get `variables := coalesce(variables, empty-object) || singleton DAI
object`; rows whose `model` is null are untouched (the SQL `where` clause). -/
def updateCostModelDai (value : String) (cm : CostModel) : CostModel :=
  if cm.model.isSome then
    { cm with «variables» := some (jsonbConcat (cm.«variables».getD []) [("DAI", value)]) }
  else cm

/-- `IndexerManagementClient.setDai`: reads the current value (undefined while
the eventual is not ready), returns with no change when the value is equal,
otherwise pushes the new value to subscribers and merges `DAI` into the
variables of every cost model row whose `model` is non-null. -/
def setDai (s : ClientState) (value : String) : ClientState :=
  let oldValue : Option String := if s.dai.valueReady then some s.dai.value else none
  if oldValue = some value then s
  else
    { dai := { valueReady := true, value := value, pushed := s.dai.pushed ++ [value] }
      costModels := s.costModels.map (updateCostModelDai value) }

/-- Sortable action fields, from the management schema enum `ActionParams`. -/
inductive ActionParams where
  | id
  | status
  | type
  | deploymentID
  | allocationID
  | transaction
  | amount
  | poi
  | force
  | source
  | reason
  | priority
  | createdAt
  | updatedAt
deriving DecidableEq, Repr

/-- Sort direction enum, from the management schema (`OrderDirection`). -/
inductive OrderDirection where
  | asc
  | desc
deriving DecidableEq, Repr

/-- Numeric rank of an action status, for ordering by the status field. -/
def statusRank : ActionStatus → Nat
  | .queued => 0
  | .approved => 1
  | .pending => 2
  | .success => 3
  | .failed => 4
  | .canceled => 5

/-- Numeric rank of an action type, for ordering by the type field. -/
def typeRank : ActionType → Nat
  | .allocate => 0
  | .unallocate => 1
  | .reallocate => 2

/-- Boolean string order derived from the lexicographic strict order. -/
def strLe (x y : String) : Bool := !(decide (y < x))

/-- Lift an order on values to optional values, placing absent values first. -/
def optLe (le : α → α → Bool) : Option α → Option α → Bool
  | none, _ => true
  | some _, none => false
  | some x, some y => le x y

/-- Modelled from the spec: the order on actions induced by one sortable field
(§4.3 ordering by any field). -/
def fieldLe : ActionParams → Action → Action → Bool
  | .id, a, b => decide (a.id ≤ b.id)
  | .status, a, b => decide (statusRank a.status ≤ statusRank b.status)
  | .type, a, b => decide (typeRank a.type ≤ typeRank b.type)
  | .deploymentID, a, b => optLe strLe a.deploymentID b.deploymentID
  | .allocationID, a, b => optLe strLe a.allocationID b.allocationID
  | .transaction, a, b => optLe strLe a.transaction b.transaction
  | .amount, a, b => optLe strLe a.amount b.amount
  | .poi, a, b => optLe strLe a.poi b.poi
  | .force, a, b => optLe (fun x y => decide (x ≤ y)) a.force b.force
  | .source, a, b => strLe a.source b.source
  | .reason, a, b => strLe a.reason b.reason
  | .priority, a, b => decide (a.priority ≤ b.priority)
  | .createdAt, a, b => decide (a.createdAt ≤ b.createdAt)
  | .updatedAt, a, b => optLe (fun x y => decide (x ≤ y)) a.updatedAt b.updatedAt

/-- The field order turned around for a descending sort. -/
def dirLe (p : ActionParams) (d : OrderDirection) (a b : Action) : Bool :=
  match d with
  | .asc => fieldLe p a b
  | .desc => fieldLe p b a

/-- Modelled from the spec: sort a list of actions by the requested field and
direction (§4.3). -/
def sortActions (p : ActionParams) (d : OrderDirection) (l : List Action) :
    List Action :=
  @List.insertionSort Action (fun a b => dirLe p d a b = true) (fun _ _ => inferInstance) l

/-- List-query filter, fields as in the management schema input `ActionFilter`. -/
structure ActionFilter where
  type : Option ActionType
  status : Option String
  source : Option String
  reason : Option String
deriving DecidableEq, Repr

/-- The string form of an action status, as serialized by the API. -/
def statusToString : ActionStatus → String
  | .queued => "queued"
  | .approved => "approved"
  | .pending => "pending"
  | .success => "success"
  | .failed => "failed"
  | .canceled => "canceled"

/-- An action satisfies every field set on the filter. -/
def matchesFilter (f : ActionFilter) (a : Action) : Bool :=
  (match f.type with
   | none => true
   | some t => a.type == t) &&
  (match f.status with
   | none => true
   | some st => statusToString a.status == st) &&
  (match f.source with
   | none => true
   | some src => a.source == src) &&
  (match f.reason with
   | none => true
   | some why => a.reason == why)

/-- Modelled from the spec: the actions list query — filter the stored actions,
then order by the requested field and direction, defaulting to id descending
(§4.3, §6).  The query resolver implementation is not among the provided
sources (only its schema declaration is). -/
def actionsQuery (stored : List Action) (f : ActionFilter) (ob : Option ActionParams)
    (od : Option OrderDirection) : List Action :=
  sortActions (ob.getD .id) (od.getD .desc) (stored.filter (matchesFilter f))

/-- Options and positional argument of the actions get CLI command, as parsed
by gluegun in `commands/indexer/actions/get.ts`; a missing option is `none`. -/
structure GetOptions where
  type : Option String
  status : Option String
  source : Option String
  reason : Option String
  orderBy : Option String
  orderDirection : Option String
  h : Bool
  help : Bool
  o : Option String
  output : Option String
  action : Option String
deriving DecidableEq, Repr

/-- JavaScript truthiness of an optional string: absent and empty are falsy. -/
def truthy : Option String → Bool
  | none => false
  | some s => !(s == "")

/-- The `o || output || 'table'` output format resolution of the command. -/
def outputFormatOf (o output : Option String) : String :=
  if truthy o then o.getD "" else if truthy output then output.getD "" else "table"

/-- The TS enum lookup `ActionParams[orderBy.toUpperCase()]` of the command. -/
def parseActionParams (s : String) : Option ActionParams :=
  match s.toUpper with
  | "ID" => some .id
  | "STATUS" => some .status
  | "TYPE" => some .type
  | "DEPLOYMENTID" => some .deploymentID
  | "ALLOCATIONID" => some .allocationID
  | "TRANSACTION" => some .transaction
  | "AMOUNT" => some .amount
  | "POI" => some .poi
  | "FORCE" => some .force
  | "SOURCE" => some .source
  | "REASON" => some .reason
  | "PRIORITY" => some .priority
  | "CREATEDAT" => some .createdAt
  | "UPDATEDAT" => some .updatedAt
  | _ => none

/-- The TS enum lookup `OrderDirection[orderDirection.toUpperCase()]`. -/
def parseOrderDirection (s : String) : Option OrderDirection :=
  match s.toUpper with
  | "ASC" => some .asc
  | "DESC" => some .desc
  | _ => none

/-- The command's orderBy and orderDirection resolution: both begin at the
defaults `ActionParams.ID` and `OrderDirection.DESC` and are recomputed only
when an orderBy option is given (`get.ts`). -/
def resolveOrder (orderBy orderDirection : Option String) :
    Option ActionParams × Option OrderDirection :=
  if truthy orderBy then
    (parseActionParams (orderBy.getD ""),
     if truthy orderDirection then parseOrderDirection (orderDirection.getD "")
     else some .desc)
  else (some .id, some .desc)

/-- The valid statuses accepted by the command's status filter check. -/
def validStatuses : List String :=
  ["queued", "approved", "pending", "success", "failed", "canceled"]

/-- The valid output formats accepted by the command. -/
def validFormats : List String := ["json", "yaml", "table"]

/-- What the actions get CLI command does with its inputs: show help, reject
the invocation with an exit code before any server query, or issue one of the
three queries. -/
inductive GetOutcome where
  | helpShown
  | rejected (exitCode : Nat)
  | fetchAll (ob : Option ActionParams) (od : Option OrderDirection)
  | fetchOne (idStr : String)
  | fetchFiltered (type status source why : Option String)
      (ob : Option ActionParams) (od : Option OrderDirection)
deriving DecidableEq, Repr

/-- The input-processing and dispatch flow of the actions get CLI command
(`get.ts` run), up to the server query; `jsIsNaN` stands for the host
JavaScript numeric test `isNaN(+s)` on the positional argument. -/
def runGet (opts : GetOptions) (jsIsNaN : String → Bool) : GetOutcome :=
  if opts.help || opts.h then .helpShown
  else
    let outputFormat := outputFormatOf opts.o opts.output
    let act := opts.action
    if !(validFormats.contains outputFormat) then .rejected 1
    else if truthy opts.status && !(validStatuses.contains (opts.status.getD "")) then
      .rejected 1
    else if truthy act && !(act.getD "" == "all") && jsIsNaN (act.getD "") then
      .rejected 1
    else if truthy act && (act.getD "" == "all") &&
        (truthy opts.type || truthy opts.status || truthy opts.source ||
         truthy opts.reason) then
      .rejected 1
    else
      let ord := resolveOrder opts.orderBy opts.orderDirection
      if truthy act then
        if act.getD "" == "all" then .fetchAll ord.1 ord.2
        else .fetchOne (act.getD "")
      else .fetchFiltered opts.type opts.status opts.source opts.reason ord.1 ord.2

-- THEOREMS-SECTION

theorem isTerminal_not_inFlight {st : ActionStatus} (h : st.isTerminal = true) :
    st.inFlight = false := by
  cases st <;> simp_all [ActionStatus.isTerminal, ActionStatus.inFlight]

theorem tgt_approveOne (d aid : Option String) (ids : List Nat) (a : Action) :
    tgtInFlight d aid (approveOne ids a) = true → tgtInFlight d aid a = true := by
  unfold approveOne
  split
  · next h => simp_all [tgtInFlight, ActionStatus.inFlight, h.2]
  · exact id

theorem tgt_cancelOne (d aid : Option String) (ids : List Nat) (a : Action) :
    tgtInFlight d aid (cancelOne ids a) = true → tgtInFlight d aid a = true := by
  unfold cancelOne
  split
  · simp [tgtInFlight, ActionStatus.inFlight]
  · exact id

theorem tgt_claimOne (d aid : Option String) (ids : List Nat) (a : Action) :
    tgtInFlight d aid (claimOne ids a) = true → tgtInFlight d aid a = true := by
  unfold claimOne
  split
  · next h => simp_all [tgtInFlight, ActionStatus.inFlight, h.2]
  · exact id

theorem tgt_settleOne (d aid : Option String) (i : Nat) (ok : Bool) (tx fr : String)
    (a : Action) :
    tgtInFlight d aid (settleOne i ok tx fr a) = true → tgtInFlight d aid a = true := by
  unfold settleOne
  split
  · cases ok <;> simp [tgtInFlight, ActionStatus.inFlight]
  · exact id

theorem countP_singleton (p : Action → Bool) (x : Action) :
    List.countP p [x] = if p x = true then 1 else 0 := by
  simp [List.countP_cons]

theorem countP_map_le_of_reflect {l : List Action} {f : Action → Action}
    {p : Action → Bool} (hf : ∀ a, p (f a) = true → p a = true) :
    (l.map f).countP p ≤ l.countP p := by
  rw [List.countP_map]
  exact List.countP_mono_left (fun a _ ha => hf a ha)

theorem queueInv_applyOp (s : QueueState) (op : QueueOp) (h : QueueInv s) :
    QueueInv (applyOp s op) := by
  intro d aid
  cases op with
  | enq i now =>
    simp only [applyOp]
    split
    · next p hp =>
      unfold enqueue at hp
      split at hp
      · exact absurd hp (by simp)
      · split at hp
        · exact absurd hp (by simp)
        · next hval hc =>
          simp only [Except.ok.injEq] at hp
          subst hp
          simp only [inFlightCount, List.countP_append, countP_singleton]
          have hzero : ∀ b ∈ s.actions,
              ¬ tgtInFlight i.deploymentID i.allocationID b = true := by
            intro b hb ht
            exact hc (List.any_eq_true.mpr ⟨b, hb, ht⟩)
          have hs := h d aid
          simp only [inFlightCount] at hs
          by_cases htgt : d = i.deploymentID ∧ aid = i.allocationID
          · obtain ⟨hd, ha⟩ := htgt
            subst hd
            subst ha
            have h0 : s.actions.countP (tgtInFlight i.deploymentID i.allocationID) = 0 := by
              rw [List.countP_eq_zero]
              exact hzero
            rw [h0]
            have hb : ∀ (b : Bool), (0 + if b = true then 1 else 0) ≤ 1 := by decide
            exact hb _
          · have hne : ∀ (x : Action), x.deploymentID = i.deploymentID →
                x.allocationID = i.allocationID → tgtInFlight d aid x = false := by
              intro x hxd hxa
              rw [Bool.eq_false_iff]
              intro hx
              simp only [tgtInFlight, Bool.and_eq_true, beq_iff_eq] at hx
              exact htgt ⟨hx.1.2.symm.trans hxd, hx.2.symm.trans hxa⟩
            rw [hne _ rfl rfl]
            simp only [Bool.false_eq_true, if_false]
            omega
    · exact h d aid
  | approve ids =>
    have hle := countP_map_le_of_reflect (l := s.actions) (p := tgtInFlight d aid)
      (fun a => tgt_approveOne d aid ids a)
    exact le_trans hle (h d aid)
  | cancel ids =>
    have hle := countP_map_le_of_reflect (l := s.actions) (p := tgtInFlight d aid)
      (fun a => tgt_cancelOne d aid ids a)
    exact le_trans hle (h d aid)
  | claim ids =>
    have hle := countP_map_le_of_reflect (l := s.actions) (p := tgtInFlight d aid)
      (fun a => tgt_claimOne d aid ids a)
    exact le_trans hle (h d aid)
  | settle i ok tx fr =>
    have hle := countP_map_le_of_reflect (l := s.actions) (p := tgtInFlight d aid)
      (fun a => tgt_settleOne d aid i ok tx fr a)
    exact le_trans hle (h d aid)
  | del ids =>
    have hle : ((deleteActs s ids).2.actions).countP (tgtInFlight d aid) ≤
        s.actions.countP (tgtInFlight d aid) :=
      (List.filter_sublist _).countP_le _
    exact le_trans hle (h d aid)

theorem reachable_queueInv {s : QueueState} (h : Reachable s) : QueueInv s := by
  induction h with
  | init => intro d aid; simp [inFlightCount, initState]
  | step s op _ ih => exact queueInv_applyOp s op ih

theorem apCount_le_inFlightCount (s : QueueState) (d aid : Option String) :
    apCount s d aid ≤ inFlightCount s d aid := by
  apply List.countP_mono_left
  intro a _ ha
  simp only [Bool.and_eq_true, Bool.or_eq_true, beq_iff_eq] at ha
  simp only [tgtInFlight, Bool.and_eq_true, beq_iff_eq]
  refine ⟨⟨?_, ha.1.2⟩, ha.2⟩
  rcases ha.1.1 with h | h <;> simp [h, ActionStatus.inFlight]

/-- C1: for every reachable queue state, at most one action with status
approved or pending exists per (deploymentID, allocationID) pair; enqueueing a
second allocate action for a deployment while an earlier action for the same
pair is still queued, approved or pending is rejected with ConflictError; and
once every action for the pair is terminal (success, failed or canceled) a new
enqueue for the same deployment succeeds. -/
theorem queue_exclusivity :
    (∀ s, Reachable s → ∀ d aid, apCount s d aid ≤ 1) ∧
    (∀ (s : QueueState) (i : ActionInput) (now : Nat) (a : Action),
      i.type = ActionType.allocate → i.deploymentID.isSome = true →
      i.amount.isSome = true → a ∈ s.actions →
      a.deploymentID = i.deploymentID → a.allocationID = i.allocationID →
      a.status.inFlight = true →
      enqueue s i now = Except.error QueueError.ConflictError) ∧
    (∀ (s : QueueState) (i : ActionInput) (now : Nat),
      i.type = ActionType.allocate → i.deploymentID.isSome = true →
      i.amount.isSome = true →
      (∀ a ∈ s.actions, a.deploymentID = i.deploymentID →
        a.allocationID = i.allocationID → a.status.isTerminal = true) →
      ∃ p, enqueue s i now = Except.ok p) := by
  refine ⟨?_, ?_, ?_⟩
  · intro s hs d aid
    exact le_trans (apCount_le_inFlightCount s d aid) (reachable_queueInv hs d aid)
  · intro s i now a hty hdep hamt hmem had haa hfl
    have hval : validateInput i = true := by simp [validateInput, hty, hdep, hamt]
    have hc : hasConflict s i = true := by
      apply List.any_eq_true.mpr
      refine ⟨a, hmem, ?_⟩
      simp only [tgtInFlight, Bool.and_eq_true, beq_iff_eq]
      exact ⟨⟨hfl, had⟩, haa⟩
    unfold enqueue
    simp [hval, hc]
  · intro s i now hty hdep hamt hterm
    have hval : validateInput i = true := by simp [validateInput, hty, hdep, hamt]
    have hc : hasConflict s i = false := by
      rw [Bool.eq_false_iff]
      intro hcon
      obtain ⟨a, hmem, ha⟩ := List.any_eq_true.mp hcon
      simp only [tgtInFlight, Bool.and_eq_true, beq_iff_eq] at ha
      have hdone := hterm a hmem ha.1.2 ha.2
      have h2 := isTerminal_not_inFlight hdone
      simp [h2] at ha
    cases he : enqueue s i now with
    | error e =>
      exfalso
      unfold enqueue at he
      simp [hval, hc] at he
    | ok p => exact ⟨p, rfl⟩

/-- Witness for C1: applied to the empty reachable queue, to a queue holding a
queued allocate action for deployment Qm1 (the second enqueue conflicts), and
to a queue whose only Qm1 action is canceled (the new enqueue succeeds). -/
theorem queue_exclusivity_witness :
    apCount initState (some "Qm1") none ≤ 1 ∧
    enqueue
      ⟨[⟨1, .queued, .allocate, some "Qm1", none, some "1000", none, none, 0, "cli",
         "", none, none, 0, none⟩], 2⟩
      ⟨.queued, .allocate, some "Qm1", none, some "1000", none, none, "cli", none, none⟩
      5 = Except.error QueueError.ConflictError ∧
    ∃ p, enqueue
      ⟨[⟨1, .canceled, .allocate, some "Qm1", none, some "1000", none, none, 0, "cli",
         "", none, none, 0, none⟩], 2⟩
      ⟨.queued, .allocate, some "Qm1", none, some "1000", none, none, "cli", none, none⟩
      5 = Except.ok p := by
  refine ⟨?_, ?_, ?_⟩
  · exact queue_exclusivity.1 initState Reachable.init (some "Qm1") none
  · exact queue_exclusivity.2.1 _ _ 5
      ⟨1, .queued, .allocate, some "Qm1", none, some "1000", none, none, 0, "cli",
       "", none, none, 0, none⟩
      rfl rfl rfl (by simp) rfl rfl rfl
  · exact queue_exclusivity.2.2 _ _ 5 rfl rfl rfl (by
      intro a ha hd hA
      simp only [List.mem_singleton] at ha
      subst ha
      rfl)

theorem stepAllowed_refl (st : ActionStatus) : stepAllowed st st = true := by
  cases st <;> rfl

theorem mem_id_unique {l : List Action} (hp : l.Pairwise (fun x y => x.id ≠ y.id))
    {a b : Action} (ha : a ∈ l) (hb : b ∈ l) (hid : a.id = b.id) : a = b := by
  by_contra hne
  have hsym : Symmetric (fun x y : Action => x.id ≠ y.id) := fun x y hxy e => hxy e.symm
  exact hp.forall hsym ha hb hne hid

theorem approveOne_id (ids : List Nat) (a : Action) : (approveOne ids a).id = a.id := by
  unfold approveOne
  split <;> rfl

theorem cancelOne_id (ids : List Nat) (a : Action) : (cancelOne ids a).id = a.id := by
  unfold cancelOne
  split <;> rfl

theorem claimOne_id (ids : List Nat) (a : Action) : (claimOne ids a).id = a.id := by
  unfold claimOne
  split <;> rfl

theorem settleOne_id (i : Nat) (ok : Bool) (tx fr : String) (a : Action) :
    (settleOne i ok tx fr a).id = a.id := by
  unfold settleOne
  split
  · split <;> rfl
  · rfl

theorem stepAllowed_approveOne (ids : List Nat) (a : Action) :
    stepAllowed a.status (approveOne ids a).status = true := by
  unfold approveOne
  split
  · next h => rw [h.2]; rfl
  · exact stepAllowed_refl _

theorem stepAllowed_cancelOne (ids : List Nat) (a : Action) :
    stepAllowed a.status (cancelOne ids a).status = true := by
  unfold cancelOne
  split
  · next h => rcases h.2 with h2 | h2 <;> rw [h2] <;> rfl
  · exact stepAllowed_refl _

theorem stepAllowed_claimOne (ids : List Nat) (a : Action) :
    stepAllowed a.status (claimOne ids a).status = true := by
  unfold claimOne
  split
  · next h => rw [h.2]; rfl
  · exact stepAllowed_refl _

theorem stepAllowed_settleOne (i : Nat) (ok : Bool) (tx fr : String) (a : Action) :
    stepAllowed a.status (settleOne i ok tx fr a).status = true := by
  unfold settleOne
  split
  · next h => cases ok <;> rw [h.2] <;> rfl
  · exact stepAllowed_refl _

theorem approveOne_terminal (ids : List Nat) (a : Action)
    (h : a.status.isTerminal = true) : approveOne ids a = a := by
  unfold approveOne
  split
  · next hc => rw [hc.2] at h; exact absurd h (by decide)
  · rfl

theorem cancelOne_terminal (ids : List Nat) (a : Action)
    (h : a.status.isTerminal = true) : cancelOne ids a = a := by
  unfold cancelOne
  split
  · next hc => rcases hc.2 with h2 | h2 <;> rw [h2] at h <;> exact absurd h (by decide)
  · rfl

theorem claimOne_terminal (ids : List Nat) (a : Action)
    (h : a.status.isTerminal = true) : claimOne ids a = a := by
  unfold claimOne
  split
  · next hc => rw [hc.2] at h; exact absurd h (by decide)
  · rfl

theorem settleOne_terminal (i : Nat) (ok : Bool) (tx fr : String) (a : Action)
    (h : a.status.isTerminal = true) : settleOne i ok tx fr a = a := by
  unfold settleOne
  split
  · next hc => rw [hc.2] at h; exact absurd h (by decide)
  · rfl

theorem wf_map (s : QueueState) (f : Action → Action)
    (hid : ∀ a, (f a).id = a.id) (h : WFQueue s) :
    WFQueue ⟨s.actions.map f, s.nextId⟩ := by
  constructor
  · intro b hb
    obtain ⟨c, hc, rfl⟩ := List.mem_map.mp hb
    rw [hid c]
    exact h.1 c hc
  · rw [List.pairwise_map]
    exact h.2.imp (fun hxy => by rw [hid, hid]; exact hxy)

theorem wf_applyOp (s : QueueState) (op : QueueOp) (h : WFQueue s) :
    WFQueue (applyOp s op) := by
  cases op with
  | enq i now =>
    simp only [applyOp]
    split
    · next p hp =>
      unfold enqueue at hp
      split at hp
      · exact absurd hp (by simp)
      · split at hp
        · exact absurd hp (by simp)
        · simp only [Except.ok.injEq] at hp
          subst hp
          constructor
          · intro b hb
            rcases List.mem_append.mp hb with hb | hb
            · exact Nat.lt_succ_of_lt (h.1 b hb)
            · simp only [List.mem_singleton] at hb
              subst hb
              exact Nat.lt_succ_self _
          · rw [List.pairwise_append]
            refine ⟨h.2, List.pairwise_singleton _ _, ?_⟩
            intro a ha b hb
            simp only [List.mem_singleton] at hb
            subst hb
            exact Nat.ne_of_lt (h.1 a ha)
    · exact h
  | approve ids => exact wf_map s _ (approveOne_id ids) h
  | cancel ids => exact wf_map s _ (cancelOne_id ids) h
  | claim ids => exact wf_map s _ (claimOne_id ids) h
  | settle i ok tx fr => exact wf_map s _ (settleOne_id i ok tx fr) h
  | del ids =>
    simp only [applyOp, deleteActs]
    constructor
    · intro b hb
      exact h.1 b (List.mem_of_mem_filter hb)
    · exact h.2.sublist (List.filter_sublist _)

theorem applyOp_stepAllowed (s : QueueState) (op : QueueOp) (h : WFQueue s)
    {a b : Action} (ha : a ∈ s.actions) (hb : b ∈ (applyOp s op).actions)
    (hid : b.id = a.id) : stepAllowed a.status b.status = true := by
  cases op with
  | enq i now =>
    revert hb
    simp only [applyOp]
    split
    · next p hp =>
      unfold enqueue at hp
      split at hp
      · exact absurd hp (by simp)
      · split at hp
        · exact absurd hp (by simp)
        · simp only [Except.ok.injEq] at hp
          subst hp
          intro hb
          rcases List.mem_append.mp hb with hb | hb
          · rw [mem_id_unique h.2 hb ha hid]
            exact stepAllowed_refl _
          · simp only [List.mem_singleton] at hb
            subst hb
            simp only at hid
            have := h.1 a ha
            omega
    · intro hb
      rw [mem_id_unique h.2 hb ha hid]
      exact stepAllowed_refl _
  | approve ids =>
    simp only [applyOp] at hb
    obtain ⟨c, hc, rfl⟩ := List.mem_map.mp hb
    have hcid : c.id = a.id := by rw [← approveOne_id ids c]; exact hid
    rw [mem_id_unique h.2 hc ha hcid]
    exact stepAllowed_approveOne ids a
  | cancel ids =>
    simp only [applyOp] at hb
    obtain ⟨c, hc, rfl⟩ := List.mem_map.mp hb
    have hcid : c.id = a.id := by rw [← cancelOne_id ids c]; exact hid
    rw [mem_id_unique h.2 hc ha hcid]
    exact stepAllowed_cancelOne ids a
  | claim ids =>
    simp only [applyOp] at hb
    obtain ⟨c, hc, rfl⟩ := List.mem_map.mp hb
    have hcid : c.id = a.id := by rw [← claimOne_id ids c]; exact hid
    rw [mem_id_unique h.2 hc ha hcid]
    exact stepAllowed_claimOne ids a
  | settle i ok tx fr =>
    simp only [applyOp] at hb
    obtain ⟨c, hc, rfl⟩ := List.mem_map.mp hb
    have hcid : c.id = a.id := by rw [← settleOne_id i ok tx fr c]; exact hid
    rw [mem_id_unique h.2 hc ha hcid]
    exact stepAllowed_settleOne i ok tx fr a
  | del ids =>
    simp only [applyOp, deleteActs] at hb
    have hb2 : b ∈ s.actions := List.mem_of_mem_filter hb
    rw [mem_id_unique h.2 hb2 ha hid]
    exact stepAllowed_refl _

theorem persist_map (i : Nat) (st : ActionStatus) (f : Action → Action)
    (hfix : ∀ a, a.status.isTerminal = true → f a = a)
    (hid : ∀ a, (f a).id = a.id) (l : List Action)
    (hterm : st.isTerminal = true)
    (hall : ∀ b ∈ l, b.id = i → b.status = st) :
    ∀ b ∈ l.map f, b.id = i → b.status = st := by
  intro b hb hbi
  obtain ⟨c, hc, rfl⟩ := List.mem_map.mp hb
  have hcid : c.id = i := by rw [← hid c]; exact hbi
  have hcst : c.status = st := hall c hc hcid
  rw [hfix c (by rw [hcst]; exact hterm)]
  exact hcst

theorem persist_applyOp (i : Nat) (st : ActionStatus) (hterm : st.isTerminal = true)
    (s : QueueState) (op : QueueOp)
    (hall : ∀ b ∈ s.actions, b.id = i → b.status = st) (hlt : i < s.nextId) :
    (∀ b ∈ (applyOp s op).actions, b.id = i → b.status = st) ∧
      i < (applyOp s op).nextId := by
  cases op with
  | enq inp now =>
    simp only [applyOp]
    split
    · next p hp =>
      unfold enqueue at hp
      split at hp
      · exact absurd hp (by simp)
      · split at hp
        · exact absurd hp (by simp)
        · simp only [Except.ok.injEq] at hp
          subst hp
          constructor
          · intro b hb hbi
            rcases List.mem_append.mp hb with hb | hb
            · exact hall b hb hbi
            · simp only [List.mem_singleton] at hb
              subst hb
              simp only at hbi
              omega
          · exact Nat.lt_succ_of_lt hlt
    · exact ⟨hall, hlt⟩
  | approve ids =>
    exact ⟨persist_map i st _ (approveOne_terminal ids) (approveOne_id ids)
      s.actions hterm hall, hlt⟩
  | cancel ids =>
    exact ⟨persist_map i st _ (cancelOne_terminal ids) (cancelOne_id ids)
      s.actions hterm hall, hlt⟩
  | claim ids =>
    exact ⟨persist_map i st _ (claimOne_terminal ids) (claimOne_id ids)
      s.actions hterm hall, hlt⟩
  | settle j ok tx fr =>
    exact ⟨persist_map i st _ (settleOne_terminal j ok tx fr)
      (settleOne_id j ok tx fr) s.actions hterm hall, hlt⟩
  | del ids =>
    refine ⟨?_, hlt⟩
    intro b hb hbi
    simp only [applyOp, deleteActs] at hb
    exact hall b (List.mem_of_mem_filter hb) hbi

theorem persist_applyOps (i : Nat) (st : ActionStatus) (hterm : st.isTerminal = true) :
    ∀ (ops : List QueueOp) (s : QueueState),
      (∀ b ∈ s.actions, b.id = i → b.status = st) → i < s.nextId →
      ∀ b ∈ (applyOps s ops).actions, b.id = i → b.status = st := by
  intro ops
  induction ops with
  | nil =>
    intro s hall _ b hb
    simp only [applyOps, List.foldl_nil] at hb
    exact hall b hb
  | cons op ops ih =>
    intro s hall hlt
    have hstep := persist_applyOp i st hterm s op hall hlt
    simp only [applyOps, List.foldl_cons]
    exact ih (applyOp s op) hstep.1 hstep.2

/-- C5: the action lifecycle is the state machine queued → approved → pending →
success or failed, plus queued or approved → canceled: every status change an
operation makes follows an edge of `stepAllowed`, and over every sequence of
queue operations an action that has reached success, failed or canceled never
changes status again. -/
theorem action_lifecycle :
    (∀ (s : QueueState) (op : QueueOp), WFQueue s →
      ∀ a ∈ s.actions, ∀ b ∈ (applyOp s op).actions, b.id = a.id →
        stepAllowed a.status b.status = true) ∧
    (∀ (s : QueueState) (ops : List QueueOp), WFQueue s →
      ∀ a ∈ s.actions, a.status.isTerminal = true →
        ∀ b ∈ (applyOps s ops).actions, b.id = a.id → b.status = a.status) := by
  constructor
  · intro s op hwf a ha b hb hid
    exact applyOp_stepAllowed s op hwf ha hb hid
  · intro s ops hwf a ha hterm b hb hid
    refine persist_applyOps a.id a.status hterm ops s ?_ (hwf.1 a ha) b hb hid
    intro c hc hci
    rw [mem_id_unique hwf.2 hc ha hci]

/-- Witness for C5: on a queue holding one successful action, an approve
operation leaves the action's terminal status untouched. -/
theorem action_lifecycle_witness :
    stepAllowed ActionStatus.success ActionStatus.success = true ∧
    (⟨1, .success, .allocate, some "Qm1", none, some "1000", none, none, 0, "cli",
      "", none, none, 0, none⟩ : Action).status = ActionStatus.success := by
  constructor
  · exact action_lifecycle.1
      ⟨[⟨1, .success, .allocate, some "Qm1", none, some "1000", none, none, 0, "cli",
         "", none, none, 0, none⟩], 2⟩
      (QueueOp.approve [1])
      ⟨by
        intro x hx
        simp only [List.mem_singleton] at hx
        subst hx
        decide, List.pairwise_singleton _ _⟩
      ⟨1, .success, .allocate, some "Qm1", none, some "1000", none, none, 0, "cli",
       "", none, none, 0, none⟩ (by decide)
      ⟨1, .success, .allocate, some "Qm1", none, some "1000", none, none, 0, "cli",
       "", none, none, 0, none⟩ (by decide) rfl
  · exact action_lifecycle.2
      ⟨[⟨1, .success, .allocate, some "Qm1", none, some "1000", none, none, 0, "cli",
         "", none, none, 0, none⟩], 2⟩
      [QueueOp.approve [1]]
      ⟨by
        intro x hx
        simp only [List.mem_singleton] at hx
        subst hx
        decide, List.pairwise_singleton _ _⟩
      ⟨1, .success, .allocate, some "Qm1", none, some "1000", none, none, 0, "cli",
       "", none, none, 0, none⟩ (by decide) rfl
      ⟨1, .success, .allocate, some "Qm1", none, some "1000", none, none, 0, "cli",
       "", none, none, 0, none⟩ (by decide) rfl

theorem mem_sortActions (p : ActionParams) (d : OrderDirection) (l : List Action)
    (a : Action) : a ∈ sortActions p d l ↔ a ∈ l := by
  unfold sortActions
  exact (@List.perm_insertionSort Action (fun x y => dirLe p d x y = true)
    (fun _ _ => inferInstance) l).mem_iff

/-- C7: delete removes every listed action whose status is not pending; a
listed pending action makes the call report ConflictError while the pending
record is kept; unlisted actions are kept; and a removed action no longer
appears in any subsequent list query result. -/
theorem delete_semantics (s : QueueState) (ids : List Nat) :
    ((deleteActs s ids).1 = some QueueError.ConflictError ↔
      ∃ a ∈ s.actions, ids.contains a.id = true ∧ a.status = ActionStatus.pending) ∧
    (∀ a ∈ s.actions, ids.contains a.id = true → a.status ≠ ActionStatus.pending →
      a ∉ (deleteActs s ids).2.actions) ∧
    (∀ a ∈ s.actions, a.status = ActionStatus.pending →
      a ∈ (deleteActs s ids).2.actions) ∧
    (∀ a ∈ s.actions, ids.contains a.id = false →
      a ∈ (deleteActs s ids).2.actions) ∧
    (∀ a ∈ s.actions, ids.contains a.id = true → a.status ≠ ActionStatus.pending →
      ∀ f ob od, a ∉ actionsQuery (deleteActs s ids).2.actions f ob od) := by
  have hmem : ∀ a : Action, a ∈ (deleteActs s ids).2.actions ↔
      a ∈ s.actions ∧ (!(ids.contains a.id) || a.status == ActionStatus.pending) = true := by
    intro a
    simp only [deleteActs]
    exact List.mem_filter
  refine ⟨?_, ?_, ?_, ?_, ?_⟩
  · simp only [deleteActs]
    split
    · next h =>
      simp only [true_iff]
      obtain ⟨a, ha, hp⟩ := List.any_eq_true.mp h
      simp only [Bool.and_eq_true, beq_iff_eq] at hp
      exact ⟨a, ha, hp.1, hp.2⟩
    · next h =>
      constructor
      · intro hfalse
        exact absurd hfalse (by simp)
      · intro hex
        obtain ⟨a, ha, hc, hp⟩ := hex
        exact absurd (List.any_eq_true.mpr ⟨a, ha, by
          simp only [Bool.and_eq_true, beq_iff_eq]
          exact ⟨hc, hp⟩⟩) h
  · intro a ha hc hne hmem2
    have hp := (hmem a).mp hmem2
    simp only [hc, Bool.not_true, Bool.false_or, beq_iff_eq] at hp
    exact hne hp.2
  · intro a ha hst
    exact (hmem a).mpr ⟨ha, by simp [hst]⟩
  · intro a ha hc
    exact (hmem a).mpr ⟨ha, by rw [hc]; simp⟩
  · intro a ha hc hne f ob od hquery
    have h1 : a ∈ (deleteActs s ids).2.actions.filter (matchesFilter f) := by
      have := hquery
      unfold actionsQuery at this
      exact (mem_sortActions _ _ _ _).mp this
    have h2 : a ∈ (deleteActs s ids).2.actions := List.mem_of_mem_filter h1
    have hp := (hmem a).mp h2
    simp only [hc, Bool.not_true, Bool.false_or, beq_iff_eq] at hp
    exact hne hp.2

/-- Witness for C7: on a queue holding a pending action (id 1) and a canceled
action (id 2), deleting both ids removes the canceled one, keeps the pending
one, reports ConflictError, and the canceled one is gone from a list query. -/
theorem delete_semantics_witness :
    (⟨2, .canceled, .allocate, some "Qm2", none, some "5", none, none, 0, "cli",
      "", none, none, 0, none⟩ : Action) ∉
      (deleteActs ⟨[⟨1, .pending, .allocate, some "Qm1", none, some "9", none, none, 0,
        "cli", "", none, none, 0, none⟩,
        ⟨2, .canceled, .allocate, some "Qm2", none, some "5", none, none, 0, "cli",
         "", none, none, 0, none⟩], 3⟩ [1, 2]).2.actions ∧
    (⟨1, .pending, .allocate, some "Qm1", none, some "9", none, none, 0, "cli",
      "", none, none, 0, none⟩ : Action) ∈
      (deleteActs ⟨[⟨1, .pending, .allocate, some "Qm1", none, some "9", none, none, 0,
        "cli", "", none, none, 0, none⟩,
        ⟨2, .canceled, .allocate, some "Qm2", none, some "5", none, none, 0, "cli",
         "", none, none, 0, none⟩], 3⟩ [1, 2]).2.actions ∧
    (deleteActs ⟨[⟨1, .pending, .allocate, some "Qm1", none, some "9", none, none, 0,
        "cli", "", none, none, 0, none⟩,
        ⟨2, .canceled, .allocate, some "Qm2", none, some "5", none, none, 0, "cli",
         "", none, none, 0, none⟩], 3⟩ [1, 2]).1 = some QueueError.ConflictError ∧
    (⟨2, .canceled, .allocate, some "Qm2", none, some "5", none, none, 0, "cli",
      "", none, none, 0, none⟩ : Action) ∉
      actionsQuery (deleteActs ⟨[⟨1, .pending, .allocate, some "Qm1", none, some "9",
        none, none, 0, "cli", "", none, none, 0, none⟩,
        ⟨2, .canceled, .allocate, some "Qm2", none, some "5", none, none, 0, "cli",
         "", none, none, 0, none⟩], 3⟩ [1, 2]).2.actions
        ⟨none, none, none, none⟩ none none := by
  refine ⟨?_, ?_, ?_, ?_⟩
  · exact (delete_semantics _ _).2.1 _ (by decide) (by decide) (by decide)
  · exact (delete_semantics _ _).2.2.1 _ (by decide) rfl
  · exact (delete_semantics _ _).1.mpr
      ⟨⟨1, .pending, .allocate, some "Qm1", none, some "9", none, none, 0, "cli",
        "", none, none, 0, none⟩, by decide, by decide, rfl⟩
  · exact (delete_semantics _ _).2.2.2.2 _ (by decide) (by decide) (by decide)
      ⟨none, none, none, none⟩ none none

/-- C3: executing a batch resolves each action to its own individual terminal
outcome: position i of the result is exactly action i resolved by outcome i,
and for a batch of three where only the second operation reverts, the first
ends success, the second ends failed with a non-empty failureReason, the third
ends success — never all three uniformly failed or uniformly succeeded. -/
theorem batch_individual_outcomes :
    (∀ (batch : List Action) (outcomes : List TxOutcome) (i : Nat) (a : Action)
        (o : TxOutcome),
      batch[i]? = some a → outcomes[i]? = some o →
      (executeBatch batch outcomes)[i]? = some (recordOutcome a o)) ∧
    (∀ (a1 a2 a3 : Action) (t1 why t3 : String), why ≠ "" →
      ((executeBatch [a1, a2, a3]
          [.confirmed t1, .reverted why, .confirmed t3]).map Action.status =
        [.success, .failed, .success]) ∧
      (∃ b, (executeBatch [a1, a2, a3]
          [.confirmed t1, .reverted why, .confirmed t3])[1]? = some b ∧
        b.failureReason = some why ∧ why ≠ "") ∧
      ¬(∀ b ∈ executeBatch [a1, a2, a3] [.confirmed t1, .reverted why, .confirmed t3],
          b.status = ActionStatus.failed) ∧
      ¬(∀ b ∈ executeBatch [a1, a2, a3] [.confirmed t1, .reverted why, .confirmed t3],
          b.status = ActionStatus.success)) := by
  constructor
  · intro batch outcomes i a o ha ho
    unfold executeBatch
    rw [List.getElem?_zipWith, ha, ho]
  · intro a1 a2 a3 t1 why t3 hwhy
    refine ⟨?_, ?_, ?_, ?_⟩
    · simp [executeBatch, recordOutcome]
    · refine ⟨{a2 with status := .failed, failureReason := some why}, ?_, rfl, hwhy⟩
      simp [executeBatch, recordOutcome]
    · intro hall
      have h1 := hall {a1 with status := .success, transaction := some t1}
        (by simp [executeBatch, recordOutcome])
      simp at h1
    · intro hall
      have h2 := hall {a2 with status := .failed, failureReason := some why}
        (by simp [executeBatch, recordOutcome])
      simp at h2

/-- Witness for C3: a concrete three-action batch whose middle operation
reverts resolves to success, failed, success; and a singleton batch resolves
pointwise. -/
theorem batch_individual_outcomes_witness :
    (executeBatch
      [⟨1, .pending, .allocate, some "Qm1", none, some "10", none, none, 0, "cli",
        "", none, none, 0, none⟩,
       ⟨2, .pending, .allocate, some "Qm2", none, some "20", none, none, 0, "cli",
        "", none, none, 0, none⟩,
       ⟨3, .pending, .allocate, some "Qm3", none, some "30", none, none, 0, "cli",
        "", none, none, 0, none⟩]
      [.confirmed "0xt1", .reverted "reverted", .confirmed "0xt3"]).map Action.status =
      [.success, .failed, .success] ∧
    (executeBatch
      [⟨1, .pending, .allocate, some "Qm1", none, some "10", none, none, 0, "cli",
        "", none, none, 0, none⟩] [.confirmed "0xt1"])[0]? =
      some (recordOutcome
        ⟨1, .pending, .allocate, some "Qm1", none, some "10", none, none, 0, "cli",
         "", none, none, 0, none⟩ (.confirmed "0xt1")) := by
  constructor
  · exact (batch_individual_outcomes.2 _ _ _ "0xt1" "reverted" "0xt3" (by decide)).1
  · exact batch_individual_outcomes.1 _ _ 0 _ _ rfl rfl

theorem mergeField_self (x : Option α) : mergeField x x = x := by
  cases x <;> rfl

theorem mergeField_some (x y : Option α) (v : α) (h : x = some v) :
    mergeField x y = some v := by
  rw [h]
  rfl

theorem mergeField_none (y : Option α) : mergeField (none : Option α) y = y := rfl

/-- C4: the effective-rule query is deterministic and its merge idempotent; a
field set on the deployment-level rule wins for every field; and a field
absent on the deployment rule inherits the next-less-specific rule's value —
in particular a global rule with decisionBasis rules plus a deployment rule
setting only allocationAmount 1000 yields an effective rule with decisionBasis
rules and allocationAmount 1000. -/
theorem effective_rule_merge :
    (∀ (rules : List IndexingRule) (w : String) (g : List String),
      getEffectiveRule rules w g = getEffectiveRule rules w g) ∧
    (∀ r : IndexingRule, mergeRules r r = r) ∧
    (∀ (rules : List IndexingRule) (w : String) (g : List String) (d : IndexingRule),
      findRule rules w .deployment = some d →
      ∃ e, getEffectiveRule rules w g = some e ∧
        (∀ v, d.allocationAmount = some v → e.allocationAmount = some v) ∧
        (∀ v, d.allocationLifetime = some v → e.allocationLifetime = some v) ∧
        (∀ v, d.autoRenewal = some v → e.autoRenewal = some v) ∧
        (∀ v, d.parallelAllocations = some v → e.parallelAllocations = some v) ∧
        (∀ v, d.maxAllocationPercentage = some v → e.maxAllocationPercentage = some v) ∧
        (∀ v, d.minSignal = some v → e.minSignal = some v) ∧
        (∀ v, d.maxSignal = some v → e.maxSignal = some v) ∧
        (∀ v, d.minStake = some v → e.minStake = some v) ∧
        (∀ v, d.minAverageQueryFees = some v → e.minAverageQueryFees = some v) ∧
        (∀ v, d.custom = some v → e.custom = some v) ∧
        (∀ v, d.decisionBasis = some v → e.decisionBasis = some v) ∧
        (∀ v, d.requireSupported = some v → e.requireSupported = some v)) ∧
    (∀ (rules : List IndexingRule) (w : String) (g : List String) (d gl : IndexingRule),
      findRule rules w .deployment = some d →
      firstGroupRule rules g = none → globalRule rules = some gl →
      d.decisionBasis = none → d.allocationAmount = some 1000 →
      gl.decisionBasis = some .rules →
      ∃ e, getEffectiveRule rules w g = some e ∧
        e.decisionBasis = some .rules ∧ e.allocationAmount = some 1000) := by
  refine ⟨fun _ _ _ => rfl, ?_, ?_, ?_⟩
  · intro r
    cases r
    simp [mergeRules, mergeField_self]
  · intro rules w g d hd
    unfold getEffectiveRule
    rw [hd]
    cases hx : mergeOptRules (firstGroupRule rules g) (globalRule rules) with
    | none =>
      exact ⟨d, rfl, fun v hv => hv, fun v hv => hv, fun v hv => hv, fun v hv => hv,
        fun v hv => hv, fun v hv => hv, fun v hv => hv, fun v hv => hv, fun v hv => hv,
        fun v hv => hv, fun v hv => hv, fun v hv => hv⟩
    | some f =>
      exact ⟨mergeRules d f, rfl,
        fun v hv => mergeField_some _ _ _ hv, fun v hv => mergeField_some _ _ _ hv,
        fun v hv => mergeField_some _ _ _ hv, fun v hv => mergeField_some _ _ _ hv,
        fun v hv => mergeField_some _ _ _ hv, fun v hv => mergeField_some _ _ _ hv,
        fun v hv => mergeField_some _ _ _ hv, fun v hv => mergeField_some _ _ _ hv,
        fun v hv => mergeField_some _ _ _ hv, fun v hv => mergeField_some _ _ _ hv,
        fun v hv => mergeField_some _ _ _ hv, fun v hv => mergeField_some _ _ _ hv⟩
  · intro rules w g d gl hd hg1 hgl hdb ham hgldb
    unfold getEffectiveRule
    rw [hd, hg1, hgl]
    refine ⟨mergeRules d gl, rfl, ?_, mergeField_some _ _ _ ham⟩
    show mergeField d.decisionBasis gl.decisionBasis = some .rules
    rw [hdb, mergeField_none]
    exact hgldb

/-- Witness for C4: a store holding exactly a deployment rule for Qm1 setting
only allocationAmount 1000 and a global rule with decisionBasis rules. -/
theorem effective_rule_merge_witness :
    ∃ e, getEffectiveRule
      [⟨"Qm1", .deployment, some 1000, none, none, none, none, none, none, none,
        none, none, none, none⟩,
       ⟨"global", .group, none, none, none, none, none, none, none, none, none,
        none, some .rules, none⟩] "Qm1" [] = some e ∧
      e.decisionBasis = some .rules ∧ e.allocationAmount = some 1000 :=
  effective_rule_merge.2.2.2 _ "Qm1" []
    ⟨"Qm1", .deployment, some 1000, none, none, none, none, none, none, none,
     none, none, none, none⟩
    ⟨"global", .group, none, none, none, none, none, none, none, none, none,
     none, some .rules, none⟩
    (by decide) rfl (by decide) rfl rfl rfl

theorem lookup_jsonbConcat_single (a : List (String × String)) (k0 v k : String) :
    (jsonbConcat a [(k0, v)]).lookup k =
      if (k == k0) = true then some v else a.lookup k := by
  unfold jsonbConcat
  have hpred : (fun p : String × String => !([(k0, v)].any (fun q => q.1 == p.1))) =
      (fun p : String × String => !(k0 == p.1)) := by
    funext p
    simp
  rw [List.lookup_append, hpred]
  have hfilter : ∀ t : List (String × String),
      (t.filter (fun p => !(k0 == p.1))).lookup k =
        if (k == k0) = true then none else t.lookup k := by
    intro t
    induction t with
    | nil =>
      simp only [List.filter_nil, List.lookup_nil]
      split <;> rfl
    | cons p t ih =>
      obtain ⟨pk, pv⟩ := p
      simp only [List.filter_cons]
      by_cases hpk : k0 = pk
      · subst hpk
        simp only [beq_self_eq_true, Bool.not_true, Bool.false_eq_true, if_false]
        rw [ih]
        by_cases hk : k = k0
        · subst hk
          simp
        · have h1 : (k == k0) = false := beq_eq_false_iff_ne.mpr hk
          simp [h1, List.lookup_cons]
      · have h1 : (k0 == pk) = false := beq_eq_false_iff_ne.mpr hpk
        simp only [h1, Bool.not_false, if_true, List.lookup_cons]
        by_cases hk : k = pk
        · subst hk
          have h2 : (k == k0) = false := beq_eq_false_iff_ne.mpr (fun e => hpk e.symm)
          simp [h2]
        · have h2 : (k == pk) = false := beq_eq_false_iff_ne.mpr hk
          simp only [h2, Bool.false_eq_true, if_false]
          exact ih
  rw [hfilter]
  by_cases hk : (k == k0) = true
  · simp [hk, List.lookup_cons]
  · simp only [hk, if_false, List.lookup_cons]
    have h2 : (k == k0) = false := by
      cases h3 : (k == k0) with
      | true => exact absurd h3 hk
      | false => rfl
    simp [h2]

theorem setDai_noop (s : ClientState) (v : String) (hr : s.dai.valueReady = true)
    (hv : s.dai.value = v) : setDai s v = s := by
  unfold setDai
  simp [hr, hv]

theorem setDai_changed (s : ClientState) (v : String)
    (h : ¬(s.dai.valueReady = true ∧ s.dai.value = v)) :
    setDai s v = { dai := ⟨true, v, s.dai.pushed ++ [v]⟩,
                   costModels := s.costModels.map (updateCostModelDai v) } := by
  unfold setDai
  by_cases hr : s.dai.valueReady = true
  · have hv : ¬(s.dai.value = v) := fun e => h ⟨hr, e⟩
    simp [hr, hv]
  · have hr2 : s.dai.valueReady = false := Bool.not_eq_true _ |>.mp hr
    simp [hr2]

/-- C6: setDai is idempotent on repeated application of the same value:
reapplying the currently held value is a no-op (nothing pushed, no cost model
touched), while a changed value is pushed to subscribers exactly once, and a
second application of the same value changes nothing further. -/
theorem setDai_exactly_once :
    (∀ (s : ClientState) (v : String),
      s.dai.valueReady = true → s.dai.value = v → setDai s v = s) ∧
    (∀ (s : ClientState) (v : String),
      ¬(s.dai.valueReady = true ∧ s.dai.value = v) →
      (setDai s v).dai.pushed = s.dai.pushed ++ [v] ∧
      (setDai s v).dai.valueReady = true ∧ (setDai s v).dai.value = v) ∧
    (∀ (s : ClientState) (v : String), setDai (setDai s v) v = setDai s v) := by
  refine ⟨setDai_noop, ?_, ?_⟩
  · intro s v h
    rw [setDai_changed s v h]
    exact ⟨rfl, rfl, rfl⟩
  · intro s v
    by_cases hc : s.dai.valueReady = true ∧ s.dai.value = v
    · rw [setDai_noop s v hc.1 hc.2, setDai_noop s v hc.1 hc.2]
    · rw [setDai_changed s v hc]
      exact setDai_noop _ v rfl rfl

/-- Witness for C6: reapplying the held value 1.00 is a no-op; setting 1.05
pushes it exactly once; reapplying 1.05 changes nothing further. -/
theorem setDai_exactly_once_witness :
    setDai ⟨⟨true, "1.00", ["1.00"]⟩, []⟩ "1.00" = ⟨⟨true, "1.00", ["1.00"]⟩, []⟩ ∧
    (setDai ⟨⟨true, "1.00", ["1.00"]⟩, []⟩ "1.05").dai.pushed = ["1.00", "1.05"] ∧
    setDai (setDai ⟨⟨true, "1.00", ["1.00"]⟩, []⟩ "1.05") "1.05" =
      setDai ⟨⟨true, "1.00", ["1.00"]⟩, []⟩ "1.05" := by
  refine ⟨?_, ?_, ?_⟩
  · exact setDai_exactly_once.1 _ _ rfl rfl
  · exact (setDai_exactly_once.2.1 _ "1.05" (by decide)).1
  · exact setDai_exactly_once.2.2 _ "1.05"

/-- C9: a changed setDai value updates only the variables field of cost model
rows whose model is non-null, merging the DAI key over the existing variables
(overwriting DAI, preserving every other key); rows with a null model, and
every other field of every row, are unchanged. -/
theorem setDai_cost_model_frame :
    ∀ (s : ClientState) (v : String),
      ¬(s.dai.valueReady = true ∧ s.dai.value = v) →
      (setDai s v).costModels.length = s.costModels.length ∧
      (∀ (i : Nat) (cm : CostModel), s.costModels[i]? = some cm →
        ∃ cm2, (setDai s v).costModels[i]? = some cm2 ∧
          cm2.deployment = cm.deployment ∧ cm2.model = cm.model ∧
          (cm.model = none → cm2 = cm) ∧
          (cm.model ≠ none → ∃ vars, cm2.«variables» = some vars ∧
            vars.lookup "DAI" = some v ∧
            (∀ k, k ≠ "DAI" → vars.lookup k = (cm.«variables».getD []).lookup k))) := by
  intro s v h
  rw [setDai_changed s v h]
  constructor
  · simp
  · intro i cm hcm
    refine ⟨updateCostModelDai v cm, ?_, ?_, ?_, ?_, ?_⟩
    · simp [List.getElem?_map, hcm]
    · unfold updateCostModelDai
      split <;> rfl
    · unfold updateCostModelDai
      split <;> rfl
    · intro hnone
      unfold updateCostModelDai
      simp [hnone]
    · intro hsome
      have hs : cm.model.isSome = true := Option.isSome_iff_ne_none.mpr hsome
      unfold updateCostModelDai
      simp only [hs, if_true]
      refine ⟨_, rfl, ?_, ?_⟩
      · rw [lookup_jsonbConcat_single]
        simp
      · intro k hk
        rw [lookup_jsonbConcat_single]
        have h2 : (k == "DAI") = false := beq_eq_false_iff_ne.mpr hk
        simp [h2]

/-- Witness for C9: a store with one non-null-model row (holding GAS and a
stale DAI) and one null-model row, on a client whose eventual is unresolved. -/
theorem setDai_cost_model_frame_witness :
    (setDai ⟨⟨false, "", []⟩,
      [⟨"QmA", some "default => 1;", some [("GAS", "2"), ("DAI", "0.9")]⟩,
       ⟨"QmB", none, none⟩]⟩ "1.05").costModels.length = 2 ∧
    ∃ cm2, (setDai ⟨⟨false, "", []⟩,
      [⟨"QmA", some "default => 1;", some [("GAS", "2"), ("DAI", "0.9")]⟩,
       ⟨"QmB", none, none⟩]⟩ "1.05").costModels[0]? = some cm2 ∧
      ∃ vars, cm2.«variables» = some vars ∧ vars.lookup "DAI" = some "1.05" ∧
        vars.lookup "GAS" = some "2" := by
  constructor
  · exact (setDai_cost_model_frame _ "1.05" (by decide)).1
  · obtain ⟨cm2, h1, h2, h3, h4, h5⟩ :=
      (setDai_cost_model_frame ⟨⟨false, "", []⟩,
        [⟨"QmA", some "default => 1;", some [("GAS", "2"), ("DAI", "0.9")]⟩,
         ⟨"QmB", none, none⟩]⟩ "1.05" (by decide)).2 0 _ rfl
    obtain ⟨vars, hv1, hv2, hv3⟩ := h5 (by simp)
    refine ⟨cm2, h1, vars, hv1, hv2, ?_⟩
    rw [hv3 "GAS" (by decide)]
    rfl

/-- C8: with no orderBy and no orderDirection given, the CLI resolves the
defaults ActionParams.id and OrderDirection.desc, and the actions query issued
without explicit ordering returns its result sorted by the id field in
descending direction. -/
theorem default_order_id_desc :
    resolveOrder none none = (some ActionParams.id, some OrderDirection.desc) ∧
    ∀ (stored : List Action) (f : ActionFilter),
      List.Sorted (fun a b : Action => b.id ≤ a.id) (actionsQuery stored f none none) := by
  constructor
  · rfl
  · intro stored f
    unfold actionsQuery sortActions
    simp only [Option.getD_none]
    have hs : List.Sorted (fun a b : Action => dirLe .id .desc a b = true)
        (@List.insertionSort Action (fun a b => dirLe .id .desc a b = true)
          (fun _ _ => inferInstance) (stored.filter (matchesFilter f))) := by
      haveI : IsTotal Action (fun a b : Action => dirLe .id .desc a b = true) := ⟨by
        intro a b
        simp only [dirLe, fieldLe, decide_eq_true_eq]
        omega⟩
      haveI : IsTrans Action (fun a b : Action => dirLe .id .desc a b = true) := ⟨by
        intro a b c
        simp only [dirLe, fieldLe, decide_eq_true_eq]
        omega⟩
      exact List.sorted_insertionSort _ _
    exact List.Pairwise.imp
      (fun hab => by simpa [dirLe, fieldLe] using hab) hs

/-- C10: the actions get command invoked with positional argument all together
with any of the type, status, source or reason filter options — or with a
positional argument that is neither all nor numeric — rejects the input with
exit code 1 before issuing any query. -/
theorem get_all_filter_rejected :
    ∀ (opts : GetOptions) (jsIsNaN : String → Bool),
      opts.h = false → opts.help = false →
      ((opts.action = some "all" ∧
        (truthy opts.type = true ∨ truthy opts.status = true ∨
         truthy opts.source = true ∨ truthy opts.reason = true)) ∨
       (∃ s, opts.action = some s ∧ s ≠ "" ∧ s ≠ "all" ∧ jsIsNaN s = true)) →
      runGet opts jsIsNaN = .rejected 1 := by
  intro opts fn hh hhelp hcase
  unfold runGet
  simp only [hh, hhelp, Bool.or_false, Bool.false_eq_true, if_false]
  rcases hcase with ⟨hall, hfil⟩ | ⟨s, hact, hne, hnall, hnan⟩
  · rw [hall]
    have hfil2 : (truthy opts.type || truthy opts.status || truthy opts.source ||
        truthy opts.reason) = true := by
      rcases hfil with h | h | h | h <;> simp [h]
    cases h1 : validFormats.contains (outputFormatOf opts.o opts.output) with
    | false => rfl
    | true =>
      cases h2 : (truthy opts.status &&
          !(validStatuses.contains (opts.status.getD ""))) with
      | true => rfl
      | false =>
        have h3 : (truthy (some "all") && !((some "all").getD "" == "all") &&
            fn ((some "all").getD "")) = false := by simp [truthy]
        rw [h3]
        have h4 : (truthy (some "all") && ((some "all").getD "" == "all") &&
            (truthy opts.type || truthy opts.status || truthy opts.source ||
             truthy opts.reason)) = true := by
          rw [hfil2]
          simp [truthy]
        rw [h4]
        rfl
  · rw [hact]
    have hsb : (s == "") = false := beq_eq_false_iff_ne.mpr hne
    have hba : (s == "all") = false := beq_eq_false_iff_ne.mpr hnall
    cases h1 : validFormats.contains (outputFormatOf opts.o opts.output) with
    | false => rfl
    | true =>
      cases h2 : (truthy opts.status &&
          !(validStatuses.contains (opts.status.getD ""))) with
      | true => rfl
      | false =>
        have h3 : (truthy (some s) && !((some s).getD "" == "all") &&
            fn ((some s).getD "")) = true := by
          simp [truthy, hsb, hba, hnan]
        rw [h3]
        rfl

/-- Witness for C10: the invocation with positional all plus a type filter, and
the invocation with the non-numeric positional abc, are both rejected with
exit code 1. -/
theorem get_all_filter_rejected_witness :
    runGet ⟨some "allocate", none, none, none, none, none, false, false, none, none,
      some "all"⟩ (fun _ => false) = .rejected 1 ∧
    runGet ⟨none, none, none, none, none, none, false, false, none, none,
      some "abc"⟩ (fun _ => true) = .rejected 1 := by
  constructor
  · exact get_all_filter_rejected _ _ rfl rfl (Or.inl ⟨rfl, Or.inl (by decide)⟩)
  · exact get_all_filter_rejected _ _ rfl rfl
      (Or.inr ⟨"abc", rfl, by decide, by decide, rfl⟩)

/-- C2: AllocationSnapshot status is a pure function of the snapshot fields with
exactly five outcomes: Null if the indexer is the zero address; Active if
tokens > 0 and not yet closed; Closed if closed but still within the dispute
window; Finalized once the dispute window has elapsed; Claimed once tokens are
fully withdrawn after finalization. -/
theorem allocationStatus_cases (a : AllocationSnapshot) :
    (a.indexer = zeroAddress → allocationStatus a = .Null) ∧
    (a.indexer ≠ zeroAddress → 0 < a.tokens → a.closedAtEpoch = 0 →
      allocationStatus a = .Active) ∧
    (a.indexer ≠ zeroAddress → 0 < a.tokens → a.closedAtEpoch ≠ 0 →
      a.currentEpoch < a.closedAtEpoch + a.channelDisputeEpochs →
      allocationStatus a = .Closed) ∧
    (a.indexer ≠ zeroAddress → 0 < a.tokens → a.closedAtEpoch ≠ 0 →
      a.closedAtEpoch + a.channelDisputeEpochs ≤ a.currentEpoch →
      allocationStatus a = .Finalized) ∧
    (a.indexer ≠ zeroAddress → a.closedAtEpoch ≠ 0 →
      a.closedAtEpoch + a.channelDisputeEpochs ≤ a.currentEpoch →
      a.tokens = 0 → allocationStatus a = .Claimed) := by
  unfold allocationStatus
  refine ⟨fun h => by simp [h], fun h ht hc => ?_, fun h ht hc hw => ?_,
    fun h ht hc hw => ?_, fun h hc hw ht => ?_⟩
  · simp [h, hc, Nat.pos_iff_ne_zero.mp ht]
  · simp [h, hc, hw, Nat.pos_iff_ne_zero.mp ht]
  · simp [h, hc, Nat.not_lt.mpr hw, Nat.pos_iff_ne_zero.mp ht]
  · simp [h, ht]

/-- Witness for C2: the five spec test vectors evaluated through
`allocationStatus_cases`. -/
theorem allocationStatus_cases_witness :
    allocationStatus ⟨"a1", zeroAddress, "Qm1", 0, 1, 0, 7, 3⟩ = .Null ∧
    allocationStatus ⟨"a2", "0xabc", "Qm1", 500, 1, 0, 7, 3⟩ = .Active ∧
    allocationStatus ⟨"a3", "0xabc", "Qm1", 500, 1, 10, 7, 12⟩ = .Closed ∧
    allocationStatus ⟨"a4", "0xabc", "Qm1", 500, 1, 10, 7, 20⟩ = .Finalized ∧
    allocationStatus ⟨"a5", "0xabc", "Qm1", 0, 1, 10, 7, 20⟩ = .Claimed :=
  ⟨(allocationStatus_cases _).1 rfl,
   (allocationStatus_cases _).2.1 (by decide) (by decide) rfl,
   (allocationStatus_cases _).2.2.1 (by decide) (by decide) (by decide) (by decide),
   (allocationStatus_cases _).2.2.2.1 (by decide) (by decide) (by decide) (by decide),
   (allocationStatus_cases _).2.2.2.2 (by decide) (by decide) (by decide) rfl⟩

end IndexerMgmt
